import Mathlib

/-!
Verification of the compt crate: a complete-binary-tree container with
split-and-consume visitors over two storage layouts (breadth-first index
arithmetic and depth-first contiguous subslices with pre/in/post order
policies), plus generic traversal adapters.

The Rust source is shallowly embedded: slices become lists, machine
integers become Nat, fallible operations (slice indexing, unwrap) return
Option, and traits are dispatched through explicit tags.  Generic visitor
adapters (written in Rust purely against the consuming `next` contract)
are modelled over an inductive tree `CTree` whose destructor is `next`.
-/

namespace Compt

/-! ### Generic visitor model

A value of one of the crate's visitor types, observed only through the
consuming `next(self) -> (Item, Option<(Self, Self)>)` contract
(lib.rs, trait CTreeIterator), is a node holding an item together with
an optional pair of child visitors.  `CTree.next` is exactly that
destructor. -/

/-- Generic tree of visitor observations: an item and optionally two children. -/
inductive CTree (α : Type) : Type where
  | node : α → Option (CTree α × CTree α) → CTree α

/-- Embedding of the consuming visitor contract `next(self)` (lib.rs:605). -/
def CTree.next {α : Type} : CTree α → α × Option (CTree α × CTree α)
  | .node a rest => (a, rest)

/-- Number of nodes of a visitor observation tree. -/
def CTree.size {α : Type} : CTree α → Nat
  | .node _ none => 1
  | .node _ (some (l, r)) => 1 + l.size + r.size

/-- Number of levels of a visitor observation tree (a single node has height 1). -/
def CTree.height {α : Type} : CTree α → Nat
  | .node _ none => 1
  | .node _ (some (l, r)) => 1 + max l.height r.height

/-- A tree is perfect when both children of every node carry equally many levels.
The crate only ever materialises perfect trees (2 ^ h - 1 nodes). -/
def CTree.isPerfect {α : Type} : CTree α → Bool
  | .node _ none => true
  | .node _ (some (l, r)) => l.isPerfect && r.isPerfect && (l.height == r.height)

/-! ### Derived recursive traversals (lib.rs: CTreeIterator default methods)

Each embedding collects the sequence of arguments passed to the callback. -/

/-- Embedding of `CTreeIterator::dfs_preorder` (lib.rs:652): emit the current
item, then recurse into the left child, then the right child. -/
def dfs_preorder {α : Type} : CTree α → List α
  | .node nn rest =>
    nn :: (match rest with
           | some (left, right) => dfs_preorder left ++ dfs_preorder right
           | none => [])

/-- Embedding of `CTreeIterator::dfs_inorder` (lib.rs:673): recurse into the
left child, emit the current item, then recurse into the right child. -/
def dfs_inorder {α : Type} : CTree α → List α
  | .node nn rest =>
    match rest with
    | some (left, right) => dfs_inorder left ++ nn :: dfs_inorder right
    | none => [nn]

/-- Embedding of `CTreeIterator::dfs_postorder` (lib.rs:695): recurse into the
right child, then the left child, then emit the current item. -/
def dfs_postorder {α : Type} : CTree α → List α
  | .node nn rest =>
    (match rest with
     | some (left, right) => dfs_postorder right ++ dfs_postorder left
     | none => []) ++ [nn]

/-! ### The pull-based preorder iterator (lib.rs:388-412)

`DfsPreorderIter` keeps a LIFO stack (a SmallVec, pushed and popped at the
back).  We model the stack as a list whose head is the top.  One call to
`Iterator::next` pops a visitor, calls its `next`, and on children pushes
`left` then `right` - leaving `right` on top. -/

/-- Embedding of `<DfsPreorderIter as Iterator>::next` (lib.rs:394-411).
Returns the emitted item and the updated stack, or none when the stack is
empty.  The code pushes the left child first and the right child second,
so the right child ends on top of the stack. -/
def dfsPreorderIterNext {α : Type} :
    List (CTree α) → Option (α × List (CTree α))
  | [] => none
  | x :: rest =>
    match CTree.next x with
    | (i, some (left, right)) => some (i, right :: left :: rest)
    | (i, none) => some (i, rest)

/-- Total size of a stack of visitors (termination measure for draining the
pull iterator). -/
def stackSize {α : Type} (s : List (CTree α)) : Nat :=
  (s.map CTree.size).sum

/-- Draining run of the pull-based preorder iterator: repeatedly apply
`dfsPreorderIterNext` until the stack is empty, collecting emitted items. -/
def dfsPreorderIterRun {α : Type} : List (CTree α) → List α
  | [] => []
  | CTree.node i (some (left, right)) :: rest =>
    i :: dfsPreorderIterRun (right :: left :: rest)
  | CTree.node i none :: rest =>
    i :: dfsPreorderIterRun rest
termination_by s => stackSize s
decreasing_by
  all_goals simp [stackSize, CTree.size]
  omega

/-- The draining run takes exactly the steps of `dfsPreorderIterNext`. -/
theorem dfsPreorderIterRun_eq {α : Type} (s : List (CTree α)) :
    dfsPreorderIterRun s =
      match dfsPreorderIterNext s with
      | none => []
      | some (i, s2) => i :: dfsPreorderIterRun s2 := by
  match s with
  | [] => simp [dfsPreorderIterRun, dfsPreorderIterNext]
  | CTree.node i (some (left, right)) :: rest =>
    simp [dfsPreorderIterRun, dfsPreorderIterNext, CTree.next]
  | CTree.node i none :: rest =>
    simp [dfsPreorderIterRun, dfsPreorderIterNext, CTree.next]

/-! ### Zip adapter (lib.rs:957-977) -/

/-- Embedding of `<Zip<T1,T2> as CTreeIterator>::next` (lib.rs:960-976): call
both inner visitors, pair the items, and pair the children when both sides
return some; otherwise return no children. -/
def zipNext {α β : Type} (z : CTree α × CTree β) :
    (α × β) × Option ((CTree α × CTree β) × (CTree α × CTree β)) :=
  let (a_item, a_rest) := CTree.next z.1
  let (b_item, b_rest) := CTree.next z.2
  let item := (a_item, b_item)
  match a_rest, b_rest with
  | some a_rest, some b_rest =>
    (item, some ((a_rest.1, b_rest.1), (a_rest.2, b_rest.2)))
  | _, _ => (item, none)

/-! ### Depth tagging (lib.rs: Depth, LevelIter) -/

/-- Embedding of `Depth::next_down` (lib.rs:1094): the depth handed to both
children is the parent depth plus one. -/
def next_down (d : Nat) : Nat := d + 1

/-- Embedding of `<LevelIter<T> as CTreeIterator>::next` (lib.rs:1135-1151):
the state is the pair of the current depth and the inner visitor; the item
is decorated with the current depth, and both children carry
`next_down` of it. -/
def levelIterNext {α : Type} (s : Nat × CTree α) :
    (Nat × α) × Option ((Nat × CTree α) × (Nat × CTree α)) :=
  let (nn, rest) := CTree.next s.2
  match rest with
  | some (left, right) =>
    ((s.1, nn), some ((next_down s.1, left), (next_down s.1, right)))
  | none => ((s.1, nn), none)

/-- Full unfolding of the `LevelIter` adapter started at depth `leveld`
(`with_depth`, lib.rs:615): every item is decorated with its depth, which
starts at `leveld` and steps by `next_down` per level. -/
def withDepthT {α : Type} (leveld : Nat) : CTree α → CTree (Nat × α)
  | .node nn rest =>
    .node (leveld, nn)
      (match rest with
       | some (left, right) =>
         some (withDepthT (next_down leveld) left,
               withDepthT (next_down leveld) right)
       | none => none)

/-- Depth carried by the root item of a decorated tree. -/
def rootDepth {α : Type} : CTree (Nat × α) → Nat
  | .node (d, _) _ => d

/-- Statement predicate: in a decorated tree every child item carries exactly
the parent item's depth plus one. -/
def depthsStep {α : Type} : CTree (Nat × α) → Bool
  | .node _ none => true
  | .node (d, _) (some (l, r)) =>
    (rootDepth l == d + 1) && (rootDepth r == d + 1) &&
      depthsStep l && depthsStep r

/-- Depths carried by the leaf items of a decorated tree. -/
def leafDepths {α : Type} : CTree (Nat × α) → List Nat
  | .node (d, _) none => [d]
  | .node _ (some (l, r)) => leafDepths l ++ leafDepths r

/-! ### Breadth-first storage layout (bfs_order.rs)

A tree of `n` nodes is a flat buffer indexed `0 .. n-1`; a visitor
(`DownT` / `DownTMut`) is the current flat index together with the index
of the first leaf.  The item a visitor produces is the buffer slot at its
index, so we track positions. -/

/-- Embedding of `NodeIndex::get_children` (bfs_order.rs:131-134): the node at
flat index `a` has children at `2 * a + 1` and `2 * a + 2`. -/
def get_children (a : Nat) : Nat × Nat := (2 * a + 1, 2 * a + 2)

/-- Embedding of `NodeIndex::first_leaf` (bfs_order.rs:136-138): the first
leaf of a buffer of `nodes` elements sits at flat index `nodes / 2`. -/
def first_leaf (nodes : Nat) : Nat := nodes / 2

/-- Embedding of `DownT::next` / `DownTMut::next` (bfs_order.rs:161-180 and
195-212): index the buffer at the current node (none models the
out-of-bounds panic), then return no children at a leaf
(`nodeid >= first_leaf`) and the two child indices otherwise.  The item is
reported as its buffer position. -/
def downTNext (n firstLeaf i : Nat) : Option (Nat × Option (Nat × Nat)) :=
  if i < n then
    if firstLeaf ≤ i then some (i, none)
    else some (i, some (get_children i))
  else none

/-- Indices of visitors reachable from a visitor at index `start` by
repeatedly splitting non-leaf visitors (every split follows
`get_children`; a split happens only below `firstLeaf`). -/
inductive ReachableFrom (firstLeaf start : Nat) : Nat → Prop where
  | refl : ReachableFrom firstLeaf start start
  | left {i : Nat} : ReachableFrom firstLeaf start i → i < firstLeaf →
      ReachableFrom firstLeaf start (get_children i).1
  | right {i : Nat} : ReachableFrom firstLeaf start i → i < firstLeaf →
      ReachableFrom firstLeaf start (get_children i).2

/-- Decides whether flat index `b` lies in the subtree rooted at flat index
`a`, by walking the parent chain `b -> (b - 1) / 2` back to the root. -/
def inSubtree (a b : Nat) : Bool :=
  if b = a then true
  else if b = 0 then false
  else inSubtree a ((b - 1) / 2)
termination_by b
decreasing_by
  exact Nat.lt_of_le_of_lt (Nat.div_le_self _ _) (by omega)

/-- Unfolding lemma for `inSubtree`. -/
theorem inSubtree_unfold (a b : Nat) :
    inSubtree a b =
      (if b = a then true
       else if b = 0 then false
       else inSubtree a ((b - 1) / 2)) := by
  rw [inSubtree]

theorem inSubtree_self (a : Nat) : inSubtree a a = true := by
  rw [inSubtree_unfold]; simp

/-- Stepping to either child stays inside the subtree. -/
theorem inSubtree_child_left {a i : Nat} (h : inSubtree a i = true) :
    inSubtree a (2 * i + 1) = true := by
  rw [inSubtree_unfold]
  by_cases hia : 2 * i + 1 = a
  · simp [hia]
  · have hp : (2 * i + 1 - 1) / 2 = i := by omega
    simp [hia, hp, h]

theorem inSubtree_child_right {a i : Nat} (h : inSubtree a i = true) :
    inSubtree a (2 * i + 2) = true := by
  rw [inSubtree_unfold]
  by_cases hia : 2 * i + 2 = a
  · simp [hia]
  · have h2 : ¬(2 * i + 2 = 0) := by omega
    rw [if_neg hia, if_neg h2]
    have hp : (2 * i + 2 - 1) / 2 = i := by omega
    rw [hp]; exact h

/-- Every index reachable from `start` lies in the subtree of `start`. -/
theorem reachable_inSubtree {fl s b : Nat} (h : ReachableFrom fl s b) :
    inSubtree s b = true := by
  induction h with
  | refl => exact inSubtree_self s
  | left _ _ ih => exact inSubtree_child_left ih
  | right _ _ ih => exact inSubtree_child_right ih

/-- A member of the subtree of `a` is `a` itself or at least `2 * a + 1`. -/
theorem inSubtree_ge {a : Nat} : ∀ b, inSubtree a b = true →
    b = a ∨ 2 * a + 1 ≤ b := by
  intro b
  induction b using Nat.strong_induction_on with
  | _ b ih =>
    intro h
    rw [inSubtree_unfold] at h
    by_cases hba : b = a
    · exact Or.inl hba
    · by_cases hb0 : b = 0
      · rw [if_neg hba, if_pos hb0] at h
        exact absurd h (by simp)
      · rw [if_neg hba, if_neg hb0] at h
        have hlt : (b - 1) / 2 < b :=
          Nat.lt_of_le_of_lt (Nat.div_le_self _ _) (by omega)
        rcases ih _ hlt h with h1 | h1 <;> omega

/-- Two indices that share a common subtree member are comparable: one lies
in the subtree of the other (the parent chain of the common member passes
through both). -/
theorem inSubtree_linear {x y : Nat} : ∀ b, inSubtree x b = true →
    inSubtree y b = true → inSubtree x y = true ∨ inSubtree y x = true := by
  intro b
  induction b using Nat.strong_induction_on with
  | _ b ih =>
    intro hx hy
    by_cases hbx : b = x
    · exact Or.inr (hbx ▸ hy)
    · by_cases hby : b = y
      · exact Or.inl (hby ▸ hx)
      · by_cases hb0 : b = 0
        · rw [inSubtree_unfold, if_neg hbx, if_pos hb0] at hx
          exact absurd hx (by simp)
        · rw [inSubtree_unfold, if_neg hbx, if_neg hb0] at hx
          rw [inSubtree_unfold, if_neg hby, if_neg hb0] at hy
          have hlt : (b - 1) / 2 < b :=
            Nat.lt_of_le_of_lt (Nat.div_le_self _ _) (by omega)
          exact ih _ hlt hx hy

/-- The subtrees below the two children of any node are disjoint. -/
theorem sibling_subtrees_disjoint (i : Nat) : ∀ b,
    ¬(inSubtree (2 * i + 1) b = true ∧ inSubtree (2 * i + 2) b = true) := by
  intro b hboth
  rcases inSubtree_linear b hboth.1 hboth.2 with h | h
  · rcases inSubtree_ge _ h with h1 | h1 <;> omega
  · rcases inSubtree_ge _ h with h1 | h1 <;> omega

/-- Neither child subtree contains the parent index. -/
theorem parent_not_in_child_subtree (i : Nat) :
    inSubtree (2 * i + 1) i = false ∧ inSubtree (2 * i + 2) i = false := by
  constructor
  · cases hc : inSubtree (2 * i + 1) i
    · rfl
    · rcases inSubtree_ge _ hc with h1 | h1 <;> omega
  · cases hc : inSubtree (2 * i + 2) i
    · rfl
    · rcases inSubtree_ge _ hc with h1 | h1 <;> omega

/-- In a buffer of odd size every index reachable from the root visitor is in
bounds (bfs_order layouts always have 2 ^ h - 1, hence odd, elements). -/
theorem reachableFrom_lt {n i : Nat} (hodd : n % 2 = 1)
    (h : ReachableFrom (first_leaf n) 0 i) : i < n := by
  induction h with
  | refl => omega
  | left hr hlt ih => simp only [get_children, first_leaf] at *; omega
  | right hr hlt ih => simp only [get_children, first_leaf] at *; omega

/-- Complete-tree node counts are odd. -/
theorem two_pow_sub_one_odd {h : Nat} (hh : 1 ≤ h) : (2 ^ h - 1) % 2 = 1 := by
  obtain ⟨k, rfl⟩ : ∃ k, h = k + 1 := ⟨h - 1, by omega⟩
  have hm : 1 ≤ 2 ^ k := Nat.one_le_two_pow
  have : 2 ^ (k + 1) = 2 * 2 ^ k := by rw [pow_succ, Nat.mul_comm]
  omega

/-! ### Depth-first storage layout (dfs_order.rs)

A visitor (`Vistr` / `VistrMut`) is the remaining contiguous sub-span of
the buffer, modelled as a list, together with a zero-sized order-policy tag
(`InOrder`, `PreOrder`, `PostOrder`) selecting one of three splits. -/

/-- Order-policy tags (dfs_order.rs: InOrder, PreOrder, PostOrder). -/
inductive DfsOrderTag : Type where
  | inOrder : DfsOrderTag
  | preOrder : DfsOrderTag
  | postOrder : DfsOrderTag

/-- Embedding of `InOrder::split` (dfs_order.rs:21-26): split at
`mid = len / 2`, then take the first element of the rest as the current
node; `none` models the panicking `unwrap` on an empty rest. -/
def InOrder_split {α : Type} (l : List α) : Option (α × List α × List α) :=
  match l.drop (l.length / 2) with
  | [] => none
  | m :: right => some (m, l.take (l.length / 2), right)

/-- Embedding of `PreOrder::split` (dfs_order.rs:39-44): take the first
element as the current node, then split the rest at `rest.len() / 2`;
`none` models the panicking `unwrap` on an empty span. -/
def PreOrder_split {α : Type} (l : List α) : Option (α × List α × List α) :=
  match l with
  | [] => none
  | m :: rest => some (m, rest.take (rest.length / 2), rest.drop (rest.length / 2))

/-- Embedding of `PostOrder::split` (dfs_order.rs:57-62): take the last
element as the current node, then split the preceding elements at
`rest.len() / 2`; `none` models the panicking `unwrap` on an empty span. -/
def PostOrder_split {α : Type} (l : List α) : Option (α × List α × List α) :=
  match l.getLast? with
  | none => none
  | some m =>
    some (m, l.dropLast.take (l.dropLast.length / 2),
          l.dropLast.drop (l.dropLast.length / 2))

/-- Static dispatch of the `DfsOrder` trait (dfs_order.rs:6-9). -/
def dfs_split {α : Type} (D : DfsOrderTag) (l : List α) :
    Option (α × List α × List α) :=
  match D with
  | .inOrder => InOrder_split l
  | .preOrder => PreOrder_split l
  | .postOrder => PostOrder_split l

/-- Embedding of `vistr_next` / `vistr_mut_next` (dfs_order.rs:397-418 and
471-492): a span of length one is a leaf yielding its single element; any
other span is split by the order policy into the current element and the
two child spans.  The outer `none` models a panic (out-of-bounds index or
failed unwrap), which happens exactly on the empty span. -/
def vistr_next {α : Type} (D : DfsOrderTag) (l : List α) :
    Option (α × Option (List α × List α)) :=
  if h : l.length = 1 then
    some (l.get ⟨0, by omega⟩, none)
  else
    match dfs_split D l with
    | some (m, left, right) => some (m, some (left, right))
    | none => none

/-- On a span of length one, every order policy yields the single element and
no children. -/
theorem vistr_next_leaf {α : Type} (D : DfsOrderTag) (a : α) :
    vistr_next D [a] = some (a, none) := by
  simp [vistr_next]

/-- On the empty span every order policy panics. -/
theorem vistr_next_nil {α : Type} (D : DfsOrderTag) :
    vistr_next D ([] : List α) = none := by
  cases D <;> simp [vistr_next, dfs_split, InOrder_split, PreOrder_split,
    PostOrder_split]

/-- InOrder splitting of a span of at least two elements: the current node
is the element at index `len / 2`, the left span is the prefix before it,
the right span the suffix after it. -/
theorem vistr_next_inorder_of_two_le {α : Type} (l : List α)
    (h2 : 2 ≤ l.length) :
    ∃ m, l.drop (l.length / 2) = m :: l.drop (l.length / 2 + 1) ∧
      vistr_next DfsOrderTag.inOrder l =
        some (m, some (l.take (l.length / 2), l.drop (l.length / 2 + 1))) := by
  have hmid : l.length / 2 < l.length := Nat.div_lt_self (by omega) (by omega)
  have hne : l.drop (l.length / 2) ≠ [] := by
    intro hcon
    have := congrArg List.length hcon
    simp at this
    omega
  match hd : l.drop (l.length / 2) with
  | [] => exact absurd hd hne
  | m :: right =>
    have hright : right = l.drop (l.length / 2 + 1) := by
      have h1 : l.drop (l.length / 2 + 1) = (l.drop (l.length / 2)).drop 1 := by
        rw [List.drop_drop]
      rw [h1, hd]
      simp
    refine ⟨m, by rw [hright], ?_⟩
    have hlen1 : ¬ l.length = 1 := by omega
    simp only [vistr_next, dif_neg hlen1, dfs_split, InOrder_split, hd, hright]

/-- PreOrder splitting of a span of at least two elements: the current node
is the first element, and the remaining elements are split at half their
count. -/
theorem vistr_next_preorder_of_two_le {α : Type} (l : List α)
    (h2 : 2 ≤ l.length) :
    ∃ m rest, l = m :: rest ∧
      vistr_next DfsOrderTag.preOrder l =
        some (m, some (rest.take (rest.length / 2), rest.drop (rest.length / 2))) := by
  match l with
  | [] => simp at h2
  | m :: rest =>
    refine ⟨m, rest, rfl, ?_⟩
    have hlen1 : ¬ (m :: rest).length = 1 := by
      simp only [List.length_cons] at h2 ⊢; omega
    simp only [vistr_next, dif_neg hlen1, dfs_split, PreOrder_split]

/-- PostOrder splitting of a span of at least two elements: the current node
is the last element, and the preceding elements are split at half their
count. -/
theorem vistr_next_postorder_of_two_le {α : Type} (l : List α)
    (h2 : 2 ≤ l.length) :
    ∃ m, l.getLast? = some m ∧
      vistr_next DfsOrderTag.postOrder l =
        some (m, some (l.dropLast.take (l.dropLast.length / 2),
                       l.dropLast.drop (l.dropLast.length / 2))) := by
  match l with
  | [] => simp at h2
  | a :: rest =>
    obtain ⟨m, hm⟩ : ∃ m, (a :: rest).getLast? = some m :=
      ⟨(a :: rest).getLast (by simp), List.getLast?_eq_getLast _ _⟩
    refine ⟨m, hm, ?_⟩
    have hlen1 : ¬ (a :: rest).length = 1 := by
      simp only [List.length_cons] at h2 ⊢; omega
    simp only [vistr_next, dif_neg hlen1, dfs_split, PostOrder_split, hm]

/-- Whenever `vistr_next` produces children the span had at least two
elements, both children are strictly shorter, and the two children plus the
current element partition the span count. -/
theorem vistr_next_lengths {α : Type} {D : DfsOrderTag} {l left right : List α}
    {m : α} (h : vistr_next D l = some (m, some (left, right))) :
    2 ≤ l.length ∧ left.length < l.length ∧ right.length < l.length ∧
      left.length + right.length + 1 = l.length := by
  have h2 : 2 ≤ l.length := by
    by_cases h1 : l.length = 1
    · obtain ⟨a, rfl⟩ := List.length_eq_one.mp h1
      rw [vistr_next_leaf] at h
      simp at h
    · by_cases h0 : l.length = 0
      · have : l = [] := List.length_eq_zero.mp h0
        subst this
        rw [vistr_next_nil] at h
        simp at h
      · omega
  refine ⟨h2, ?_⟩
  cases D with
  | inOrder =>
    obtain ⟨m2, _, heq⟩ := vistr_next_inorder_of_two_le l h2
    rw [heq] at h
    obtain ⟨rfl, rfl, rfl⟩ : m2 = m ∧ l.take (l.length / 2) = left ∧
        l.drop (l.length / 2 + 1) = right := by
      simpa using h
    have ht : (l.take (l.length / 2)).length = l.length / 2 := by
      rw [List.length_take]; omega
    have hdr := List.length_drop (l.length / 2 + 1) l
    simp only [ht, hdr]
    omega
  | preOrder =>
    obtain ⟨m2, rest, rfl, heq⟩ := vistr_next_preorder_of_two_le l h2
    rw [heq] at h
    obtain ⟨rfl, rfl, rfl⟩ : m2 = m ∧ rest.take (rest.length / 2) = left ∧
        rest.drop (rest.length / 2) = right := by
      simpa using h
    have ht : (rest.take (rest.length / 2)).length = rest.length / 2 := by
      rw [List.length_take]; omega
    have hdr := List.length_drop (rest.length / 2) rest
    simp only [ht, hdr, List.length_cons]
    omega
  | postOrder =>
    obtain ⟨m2, _, heq⟩ := vistr_next_postorder_of_two_le l h2
    rw [heq] at h
    obtain ⟨rfl, rfl, rfl⟩ : m2 = m ∧ l.dropLast.take (l.dropLast.length / 2) = left ∧
        l.dropLast.drop (l.dropLast.length / 2) = right := by
      simpa using h
    have ht : (l.dropLast.take (l.dropLast.length / 2)).length =
        l.dropLast.length / 2 := by
      rw [List.length_take]; omega
    have hdr := List.length_drop (l.dropLast.length / 2) l.dropLast
    have hdl : l.dropLast.length = l.length - 1 := List.length_dropLast l
    rw [ht, hdr, hdl]
    omega

/-- On a complete span of 2 ^ k - 1 elements with k at least 2, every order
policy splits successfully into two complete child spans of
2 ^ (k - 1) - 1 elements each. -/
theorem vistr_next_children_valid {α : Type} (D : DfsOrderTag) (l : List α)
    {k : Nat} (hk : 2 ≤ k) (hl : l.length = 2 ^ k - 1) :
    ∃ m left right, vistr_next D l = some (m, some (left, right)) ∧
      left.length = 2 ^ (k - 1) - 1 ∧ right.length = 2 ^ (k - 1) - 1 := by
  have hp2 : 2 ≤ 2 ^ (k - 1) := by
    calc 2 = 2 ^ 1 := by norm_num
    _ ≤ 2 ^ (k - 1) := Nat.pow_le_pow_right (by omega) (by omega)
  have hpow : 2 ^ k = 2 * 2 ^ (k - 1) := by
    obtain ⟨j, rfl⟩ : ∃ j, k = j + 1 := ⟨k - 1, by omega⟩
    rw [pow_succ, Nat.mul_comm]
    simp
  have h2 : 2 ≤ l.length := by omega
  cases D with
  | inOrder =>
    obtain ⟨m, _, heq⟩ := vistr_next_inorder_of_two_le l h2
    refine ⟨m, _, _, heq, ?_, ?_⟩
    · rw [List.length_take]; omega
    · rw [List.length_drop]; omega
  | preOrder =>
    obtain ⟨m, rest, hcons, heq⟩ := vistr_next_preorder_of_two_le l h2
    have hrest : rest.length = 2 ^ k - 2 := by
      have := congrArg List.length hcons
      simp at this
      omega
    refine ⟨m, _, _, heq, ?_, ?_⟩
    · rw [List.length_take]; omega
    · rw [List.length_drop]; omega
  | postOrder =>
    obtain ⟨m, _, heq⟩ := vistr_next_postorder_of_two_le l h2
    have hrest : l.dropLast.length = 2 ^ k - 2 := by
      rw [List.length_dropLast]; omega
    refine ⟨m, _, _, heq, ?_, ?_⟩
    · rw [List.length_take]; omega
    · rw [List.length_drop]; omega

/-- Any successful split decomposes the span, up to permutation, into the
current element followed by the two child spans (the three split policies
only differ in where the current element sits). -/
theorem vistr_next_perm {α : Type} {D : DfsOrderTag} {s left right : List α}
    {m : α} (h : vistr_next D s = some (m, some (left, right))) :
    s.Perm (m :: (left ++ right)) := by
  have h2 : 2 ≤ s.length := (vistr_next_lengths h).1
  cases D with
  | inOrder =>
    obtain ⟨m2, hd, heq⟩ := vistr_next_inorder_of_two_le s h2
    rw [heq] at h
    simp only [Option.some.injEq, Prod.mk.injEq] at h
    obtain ⟨rfl, rfl, rfl⟩ := h
    have hs : s = s.take (s.length / 2) ++ m2 :: s.drop (s.length / 2 + 1) := by
      conv_lhs => rw [← List.take_append_drop (s.length / 2) s]
      rw [hd]
    nth_rewrite 1 [hs]
    exact List.perm_middle
  | preOrder =>
    obtain ⟨m2, rest, hcons, heq⟩ := vistr_next_preorder_of_two_le s h2
    rw [heq] at h
    simp only [Option.some.injEq, Prod.mk.injEq] at h
    obtain ⟨rfl, rfl, rfl⟩ := h
    rw [List.take_append_drop, hcons]
  | postOrder =>
    obtain ⟨m2, hlast, heq⟩ := vistr_next_postorder_of_two_le s h2
    rw [heq] at h
    simp only [Option.some.injEq, Prod.mk.injEq] at h
    obtain ⟨rfl, rfl, rfl⟩ := h
    rw [List.take_append_drop]
    have hne : s ≠ [] := by
      intro hc
      rw [hc] at h2
      simp at h2
    have hgl : m2 = s.getLast hne := by
      have hx := List.getLast?_eq_getLast s hne
      rw [hlast] at hx
      injection hx
    have hs : s.dropLast ++ [m2] = s := by
      rw [hgl]
      exact List.dropLast_append_getLast hne
    nth_rewrite 1 [← hs]
    simpa using List.perm_middle

/-- On a duplicate-free span the two child spans of any split are
duplicate-free, mutually disjoint, and neither contains the current
element. -/
theorem vistr_next_nodup_disjoint {α : Type} {D : DfsOrderTag}
    {s left right : List α} {m : α} (hnd : s.Nodup)
    (h : vistr_next D s = some (m, some (left, right))) :
    left.Nodup ∧ right.Nodup ∧ (∀ p ∈ left, p ∉ right) ∧
      m ∉ left ∧ m ∉ right := by
  have hnd2 : (m :: (left ++ right)).Nodup := (vistr_next_perm h).nodup hnd
  rw [List.nodup_cons, List.nodup_append] at hnd2
  obtain ⟨hm, hl, hr, hdisj⟩ := hnd2
  simp only [List.mem_append] at hm
  exact ⟨hl, hr, fun p hp => hdisj hp, fun hc => hm (Or.inl hc),
    fun hc => hm (Or.inr hc)⟩

/-- Spans of visitors reachable from the root visitor over span `root` by
repeatedly splitting via `vistr_next`. -/
inductive ReachableSpan {α : Type} (D : DfsOrderTag) (root : List α) :
    List α → Prop where
  | refl : ReachableSpan D root root
  | left {s left right : List α} {m : α} : ReachableSpan D root s →
      vistr_next D s = some (m, some (left, right)) →
      ReachableSpan D root left
  | right {s left right : List α} {m : α} : ReachableSpan D root s →
      vistr_next D s = some (m, some (left, right)) →
      ReachableSpan D root right

/-- Complete-span invariant: starting from a buffer of 2 ^ h - 1 elements,
every reachable span again holds 2 ^ k - 1 elements for some k at least 1. -/
theorem reachableSpan_complete {α : Type} {D : DfsOrderTag} {root s : List α}
    {h : Nat} (hh : 1 ≤ h) (hroot : root.length = 2 ^ h - 1)
    (hr : ReachableSpan D root s) :
    ∃ k, 1 ≤ k ∧ s.length = 2 ^ k - 1 := by
  induction hr with
  | refl => exact ⟨h, hh, hroot⟩
  | left hr hnext ih =>
    obtain ⟨k, hk1, hs⟩ := ih
    have hk2 : 2 ≤ k := by
      rcases Nat.lt_or_ge k 2 with hlt | hge
      · obtain rfl : k = 1 := by omega
        norm_num at hs
        obtain ⟨a, ha⟩ := List.length_eq_one.mp hs
        rw [ha, vistr_next_leaf] at hnext
        simp at hnext
      · exact hge
    obtain ⟨m2, left2, right2, heq, hlen, _⟩ :=
      vistr_next_children_valid D _ hk2 hs
    rw [heq] at hnext
    simp only [Option.some.injEq, Prod.mk.injEq] at hnext
    obtain ⟨-, rfl, rfl⟩ := hnext
    exact ⟨k - 1, by omega, hlen⟩
  | right hr hnext ih =>
    obtain ⟨k, hk1, hs⟩ := ih
    have hk2 : 2 ≤ k := by
      rcases Nat.lt_or_ge k 2 with hlt | hge
      · obtain rfl : k = 1 := by omega
        norm_num at hs
        obtain ⟨a, ha⟩ := List.length_eq_one.mp hs
        rw [ha, vistr_next_leaf] at hnext
        simp at hnext
      · exact hge
    obtain ⟨m2, left2, right2, heq, _, hlen⟩ :=
      vistr_next_children_valid D _ hk2 hs
    rw [heq] at hnext
    simp only [Option.some.injEq, Prod.mk.injEq] at hnext
    obtain ⟨-, rfl, rfl⟩ := hnext
    exact ⟨k - 1, by omega, hlen⟩

/-- Spans reachable from a duplicate-free root span stay duplicate-free (in
particular every span of distinct buffer positions reachable from the full
buffer). -/
theorem reachableSpan_nodup {α : Type} {D : DfsOrderTag} {root s : List α}
    (hnd : root.Nodup) (hr : ReachableSpan D root s) : s.Nodup := by
  induction hr with
  | refl => exact hnd
  | left hr hnext ih => exact (vistr_next_nodup_disjoint ih hnext).1
  | right hr hnext ih => exact (vistr_next_nodup_disjoint ih hnext).2.1

/-- Recursive in-order walk of an InOrder-layout span through `vistr_next`
(the generic `Visitor::dfs_inorder` recursion of the converged trait,
lib.rs:673-690, driven by the splits of dfs_order.rs): walk the left child
span, emit the current element, walk the right child span.  `none`
propagates a panic of `vistr_next`. -/
def dfsInorderVistr {α : Type} (l : List α) : Option (List α) :=
  match h : vistr_next DfsOrderTag.inOrder l with
  | none => none
  | some (m, none) => some [m]
  | some (m, some (left, right)) =>
    match dfsInorderVistr left, dfsInorderVistr right with
    | some a, some b => some (a ++ m :: b)
    | _, _ => none
termination_by l.length
decreasing_by
  · exact (vistr_next_lengths h).2.1
  · exact (vistr_next_lengths h).2.2.1

/-- Embedding of `log_2` (dfs_order.rs:383-390): for x > 0 the bit
computation num_bits - x.leading_zeros() - 1 equals the floor base-2
logarithm, which on Nat is Nat.log2; the failing assertion on x = 0 is
modelled as none. -/
def log_2 (x : Nat) : Option Nat :=
  if 0 < x then some (Nat.log2 x) else none

/-- Embedding of `vistr_dfs_level_remaining_hint` /
`vistr_mut_dfs_level_remaining_hint` (dfs_order.rs:392-396 and 464-470):
both bounds are `log_2(len + 1)`. -/
def vistr_dfs_level_remaining_hint {α : Type} (l : List α) :
    Option (Nat × Option Nat) :=
  match log_2 (l.length + 1) with
  | some left => some (left, some left)
  | none => none

/-- Modelled from the spec: the default `level_remaining_hint` of the
converged Visitor trait is not under src/; the spec states it is the
uninformative pair (0, None). -/
def default_level_remaining_hint : Nat × Option Nat := (0, none)

/-- Nat.log2 inverts powers of two. -/
theorem log2_two_pow (k : Nat) : Nat.log2 (2 ^ k) = k := by
  rw [Nat.log2_eq_log_two]
  exact Nat.log_pow (by norm_num) k

/-! ### Tree construction from a caller-supplied buffer

`CompleteTreeContainer::from_vec_inner` (dfs_order.rs:121-132) validates
the buffer length with `valid_node_num` and then wraps the buffer
unchanged.  `valid_node_num` itself is declared outside src/, so it is
modelled from the spec. -/

/-- Modelled from the spec: the dedicated invalid complete-tree-size error
(`NotCompleteTreeSizeErr`, referenced throughout dfs_order.rs but declared
outside src/). -/
inductive NotCompleteTreeSizeErr : Type where
  | mk : NotCompleteTreeSizeErr

/-- Modelled from the spec: `usize::is_power_of_two`, the power-of-two test
used by the size validation: zero is not a power of two, one is, and an
even number is one iff its half is. -/
def is_power_of_two : Nat → Bool
  | 0 => false
  | 1 => true
  | n + 2 => decide ((n + 2) % 2 = 0) && is_power_of_two ((n + 2) / 2)
termination_by n => n
decreasing_by
  exact Nat.div_lt_self (by omega) (by omega)

/-- Modelled from the spec: `valid_node_num` (called at dfs_order.rs:126, 227
and 253 but declared outside src/) accepts a buffer length iff
length + 1 is a power of two and the length is nonzero. -/
def valid_node_num (num : Nat) : Except NotCompleteTreeSizeErr Unit :=
  if is_power_of_two (num + 1) && decide (num ≠ 0) then Except.ok ()
  else Except.error NotCompleteTreeSizeErr.mk

/-- Embedding of `CompleteTreeContainer::from_vec_inner` (dfs_order.rs:121-132):
validate the length, then wrap the buffer unchanged (the container is
represented by its node buffer). -/
def from_vec_inner {α : Type} (vec : List α) :
    Except NotCompleteTreeSizeErr (List α) :=
  match valid_node_num vec.length with
  | Except.ok _ => Except.ok vec
  | Except.error e => Except.error e

/-- Unfolding lemma for `is_power_of_two`. -/
theorem is_power_of_two_unfold (n : Nat) :
    is_power_of_two (n + 2) =
      (decide ((n + 2) % 2 = 0) && is_power_of_two ((n + 2) / 2)) := by
  rw [is_power_of_two]

/-- The executable power-of-two test agrees with the mathematical one. -/
theorem is_power_of_two_iff : ∀ n : Nat,
    is_power_of_two n = true ↔ ∃ k, n = 2 ^ k := by
  intro n
  induction n using Nat.strong_induction_on with
  | _ n ih =>
    match n with
    | 0 =>
      simp only [is_power_of_two]
      constructor
      · intro h; exact absurd h (by simp)
      · rintro ⟨k, hk⟩
        exact absurd hk.symm (Nat.pos_iff_ne_zero.mp (Nat.pos_pow_of_pos k (by omega)))
    | 1 =>
      simp only [is_power_of_two]
      exact ⟨fun _ => ⟨0, rfl⟩, fun _ => trivial⟩
    | m + 2 =>
      rw [is_power_of_two_unfold]
      have ihhalf := ih ((m + 2) / 2) (Nat.div_lt_self (by omega) (by omega))
      constructor
      · intro h
        simp only [Bool.and_eq_true, decide_eq_true_eq] at h
        obtain ⟨k, hk⟩ := ihhalf.mp h.2
        refine ⟨k + 1, ?_⟩
        have := h.1
        rw [pow_succ, ← hk]
        omega
      · rintro ⟨k, hk⟩
        obtain ⟨j, rfl⟩ : ∃ j, k = j + 1 := by
          cases k with
          | zero => omega
          | succ j => exact ⟨j, rfl⟩
        have h2 : (2 : Nat) ^ (j + 1) = 2 * 2 ^ j := by
          rw [pow_succ, Nat.mul_comm]
        simp only [Bool.and_eq_true, decide_eq_true_eq]
        constructor
        · omega
        · apply ihhalf.mpr
          exact ⟨j, by omega⟩

/-- Induction principle for `CTree` exposing the two shapes (leaf and
two-child node). -/
theorem CTree.myInduction {α : Type} {P : CTree α → Prop}
    (leaf : ∀ a, P (CTree.node a none))
    (branch : ∀ a l r, P l → P r → P (CTree.node a (some (l, r)))) :
    ∀ t, P t
  | .node a none => leaf a
  | .node a (some (l, r)) =>
    branch a l r (CTree.myInduction leaf branch l) (CTree.myInduction leaf branch r)
termination_by t => t.size
decreasing_by
  all_goals (simp [CTree.size]; try omega)

/-- Unfolding lemma for the in-order walk at a leaf span. -/
theorem dfsInorderVistr_of_next_leaf {α : Type} {l : List α} {m : α}
    (h : vistr_next DfsOrderTag.inOrder l = some (m, none)) :
    dfsInorderVistr l = some [m] := by
  rw [dfsInorderVistr]
  split <;> simp_all

/-- Unfolding lemma for the in-order walk at a split span. -/
theorem dfsInorderVistr_of_next_children {α : Type} {l left right : List α}
    {m : α} (h : vistr_next DfsOrderTag.inOrder l = some (m, some (left, right))) :
    dfsInorderVistr l =
      match dfsInorderVistr left, dfsInorderVistr right with
      | some a, some b => some (a ++ m :: b)
      | _, _ => none := by
  rw [dfsInorderVistr]
  split <;> simp_all

/-- The in-order walk over a complete InOrder-layout span reproduces the
span itself, in storage order. -/
theorem dfsInorderVistr_complete {α : Type} : ∀ (k : Nat) (l : List α),
    1 ≤ k → l.length = 2 ^ k - 1 → dfsInorderVistr l = some l := by
  intro k
  induction k using Nat.strong_induction_on with
  | _ k ih =>
    intro l hk hl
    by_cases hk1 : k = 1
    · subst hk1
      norm_num at hl
      obtain ⟨a, rfl⟩ := List.length_eq_one.mp hl
      rw [dfsInorderVistr_of_next_leaf (vistr_next_leaf DfsOrderTag.inOrder a)]
    · have hk2 : 2 ≤ k := by omega
      have hp1 : 1 ≤ 2 ^ (k - 1) := Nat.one_le_two_pow
      have hpow : 2 ^ k = 2 * 2 ^ (k - 1) := by
        obtain ⟨j, rfl⟩ : ∃ j, k = j + 1 := ⟨k - 1, by omega⟩
        rw [pow_succ, Nat.mul_comm]
        simp
      have hp2 : 2 ≤ 2 ^ (k - 1) := by
        calc (2 : Nat) = 2 ^ 1 := by norm_num
        _ ≤ 2 ^ (k - 1) := Nat.pow_le_pow_right (by omega) (by omega)
      have h2 : 2 ≤ l.length := by omega
      obtain ⟨m, hdrop, heq⟩ := vistr_next_inorder_of_two_le l h2
      rw [dfsInorderVistr_of_next_children heq]
      have hlenL : (l.take (l.length / 2)).length = 2 ^ (k - 1) - 1 := by
        rw [List.length_take]; omega
      have hlenR : (l.drop (l.length / 2 + 1)).length = 2 ^ (k - 1) - 1 := by
        rw [List.length_drop]; omega
      rw [ih (k - 1) (by omega) _ (by omega) hlenL,
          ih (k - 1) (by omega) _ (by omega) hlenR]
      simp only
      rw [← hdrop, List.take_append_drop]

/-- Every tree of visitor observations has at least one level. -/
theorem CTree.height_pos {α : Type} (t : CTree α) : 1 ≤ t.height := by
  rcases t with ⟨a, _ | ⟨l, r⟩⟩ <;> simp [CTree.height]

/-- The decorated root carries exactly the starting depth. -/
theorem withDepthT_rootDepth {α : Type} (d : Nat) (t : CTree α) :
    rootDepth (withDepthT d t) = d := by
  rcases t with ⟨a, _ | ⟨l, r⟩⟩ <;> rfl

/-- In a decorated tree every child depth is the parent depth plus one. -/
theorem withDepthT_step {α : Type} (t : CTree α) :
    ∀ d, depthsStep (withDepthT d t) = true := by
  induction t using CTree.myInduction with
  | leaf a => intro d; rfl
  | branch a l r ihl ihr =>
    intro d
    simp [withDepthT, depthsStep, withDepthT_rootDepth, next_down, ihl, ihr]

/-- In a decorated perfect tree every leaf depth is the starting depth plus
the height minus one. -/
theorem withDepthT_leafDepths {α : Type} (t : CTree α) :
    CTree.isPerfect t = true → ∀ d x, x ∈ leafDepths (withDepthT d t) →
      x = d + t.height - 1 := by
  induction t using CTree.myInduction with
  | leaf a =>
    intro _ d x hx
    simp [withDepthT, leafDepths] at hx
    simp [hx, CTree.height]
  | branch a l r ihl ihr =>
    intro hp d x hx
    simp only [CTree.isPerfect, Bool.and_eq_true, beq_iff_eq] at hp
    obtain ⟨⟨hpl, hpr⟩, hlr⟩ := hp
    have hl1 := CTree.height_pos l
    simp only [withDepthT, leafDepths, List.mem_append] at hx
    rcases hx with hx | hx
    · have := ihl hpl (next_down d) x hx
      simp only [next_down] at this
      simp only [CTree.height, hlr]
      simp only [hlr] at this hl1
      omega
    · have := ihr hpr (next_down d) x hx
      simp only [next_down] at this
      have hr1 := CTree.height_pos r
      simp only [CTree.height, hlr]
      omega

/-- InOrder splitting of a nonempty span, at the level of `InOrder::split`
itself: the span decomposes at index `len / 2`. -/
theorem InOrder_split_of_one_le {α : Type} (l : List α) (h1 : 1 ≤ l.length) :
    ∃ m, l.drop (l.length / 2) = m :: l.drop (l.length / 2 + 1) ∧
      InOrder_split l =
        some (m, l.take (l.length / 2), l.drop (l.length / 2 + 1)) := by
  have hmid : l.length / 2 < l.length := Nat.div_lt_self (by omega) (by omega)
  have hne : l.drop (l.length / 2) ≠ [] := by
    intro hcon
    have := congrArg List.length hcon
    simp at this
    omega
  match hd : l.drop (l.length / 2) with
  | [] => exact absurd hd hne
  | m :: right =>
    have hright : right = l.drop (l.length / 2 + 1) := by
      have hx : l.drop (l.length / 2 + 1) = (l.drop (l.length / 2)).drop 1 := by
        rw [List.drop_drop]
      rw [hx, hd]
      simp
    subst hright
    exact ⟨m, rfl, by simp only [InOrder_split]; rw [hd]⟩

/-- Construction succeeds exactly on valid complete-tree sizes, and then
returns the buffer unchanged; otherwise it returns the dedicated error. -/
theorem from_vec_inner_spec {α : Type} (vec : List α) :
    (((∃ k, vec.length + 1 = 2 ^ k) ∧ 0 < vec.length) →
        from_vec_inner vec = Except.ok vec) ∧
      (¬((∃ k, vec.length + 1 = 2 ^ k) ∧ 0 < vec.length) →
        from_vec_inner vec = Except.error NotCompleteTreeSizeErr.mk) := by
  constructor
  · rintro ⟨⟨k, hk⟩, hpos⟩
    have hpot : is_power_of_two (vec.length + 1) = true :=
      (is_power_of_two_iff _).mpr ⟨k, hk⟩
    have : valid_node_num vec.length = Except.ok () := by
      rw [valid_node_num, if_pos]
      simp only [hpot, Bool.true_and, decide_eq_true_eq]
      omega
    rw [from_vec_inner, this]
  · intro hnot
    have : valid_node_num vec.length = Except.error NotCompleteTreeSizeErr.mk := by
      rw [valid_node_num, if_neg]
      intro hcon
      simp only [Bool.and_eq_true, decide_eq_true_eq] at hcon
      exact hnot ⟨(is_power_of_two_iff _).mp hcon.1, by omega⟩
    rw [from_vec_inner, this]

/-! ### The claims -/

/-- Claim C1: in the breadth-first layout, splitting a non-leaf visitor at
any reachable index i yields the child visitors at flat indices 2i+1 and
2i+2, and the index sets of the subtrees rooted at the two children are
disjoint and neither contains i, so the buffer positions the two child
visitors can ever reference are disjoint and exclude the parent's; in the
depth-first layout (every order policy), viewing a span as the buffer
positions it covers (the root visitor covers positions 0..n-1), splitting
any reachable non-leaf visitor yields two child spans covering disjoint
position sets, neither containing the current element's position. -/
theorem claim_C1 {h n i : Nat} (hn : n = 2 ^ h - 1) (hh : 1 ≤ h)
    (hreach : ReachableFrom (first_leaf n) 0 i) (hleaf : i < first_leaf n) :
    (downTNext n (first_leaf n) i = some (i, some (2 * i + 1, 2 * i + 2)) ∧
      (∀ b, ¬(inSubtree (2 * i + 1) b = true ∧ inSubtree (2 * i + 2) b = true)) ∧
      inSubtree (2 * i + 1) i = false ∧ inSubtree (2 * i + 2) i = false ∧
      (∀ b, ReachableFrom (first_leaf n) (2 * i + 1) b →
          ¬ ReachableFrom (first_leaf n) (2 * i + 2) b)) ∧
    (∀ (D : DfsOrderTag) (s left right : List Nat) (m : Nat),
        ReachableSpan D (List.range n) s →
        vistr_next D s = some (m, some (left, right)) →
        (∀ p ∈ left, p ∉ right) ∧ m ∉ left ∧ m ∉ right) := by
  have hodd : n % 2 = 1 := hn ▸ two_pow_sub_one_odd hh
  have hin : i < n := reachableFrom_lt hodd hreach
  constructor
  · refine ⟨?_, sibling_subtrees_disjoint i, (parent_not_in_child_subtree i).1,
      (parent_not_in_child_subtree i).2, ?_⟩
    · rw [downTNext, if_pos hin, if_neg (by omega)]
      rfl
    · intro b h1 h2
      exact sibling_subtrees_disjoint i b
        ⟨reachable_inSubtree h1, reachable_inSubtree h2⟩
  · intro D s left right m hr hnext
    have hnd : s.Nodup := reachableSpan_nodup (List.nodup_range n) hr
    obtain ⟨-, -, hdisj, hml, hmr⟩ := vistr_next_nodup_disjoint hnd hnext
    exact ⟨hdisj, hml, hmr⟩

/-- Witness for claim C1 at the height-2 tree (3 nodes): breadth-first part
at root index 0, depth-first part at the root span of positions 0, 1, 2
under the InOrder policy. -/
theorem claim_C1_witness :
    (downTNext 3 (first_leaf 3) 0 = some (0, some (1, 2)) ∧
      (∀ b, ¬(inSubtree 1 b = true ∧ inSubtree 2 b = true)) ∧
      inSubtree 1 0 = false ∧ inSubtree 2 0 = false ∧
      (∀ b, ReachableFrom (first_leaf 3) 1 b →
          ¬ ReachableFrom (first_leaf 3) 2 b)) ∧
    ((∀ p ∈ ([0] : List Nat), p ∉ ([2] : List Nat)) ∧
      (1 : Nat) ∉ ([0] : List Nat) ∧ (1 : Nat) ∉ ([2] : List Nat)) :=
  ⟨(@claim_C1 2 3 0 (by norm_num) (by norm_num) ReachableFrom.refl (by decide)).1,
   (@claim_C1 2 3 0 (by norm_num) (by norm_num) ReachableFrom.refl
       (by decide)).2 DfsOrderTag.inOrder (List.range 3) [0] [2] 1
     ReachableSpan.refl (by rfl)⟩

/-- Claim C2: on a tree of 2 ^ h - 1 nodes, next() is total on every
reachable visitor of both layouts: the depth-first step always returns an
item and returns children exactly when the span is longer than one element;
the breadth-first step always indexes in bounds and returns children
exactly when the index is below n / 2. -/
theorem claim_C2 {α : Type} :
    (∀ (D : DfsOrderTag) (h : Nat) (root s : List α), root.length = 2 ^ h - 1 →
        1 ≤ h → ReachableSpan D root s →
        ∃ m c, vistr_next D s = some (m, c) ∧ (c.isSome ↔ 1 < s.length)) ∧
    (∀ (h n : Nat), n = 2 ^ h - 1 → 1 ≤ h →
        ∀ i, ReachableFrom (first_leaf n) 0 i →
          i < n ∧ ∃ c, downTNext n (first_leaf n) i = some (i, c) ∧
            (c.isSome ↔ i < first_leaf n)) := by
  constructor
  · intro D h root s hroot hh hr
    obtain ⟨k, hk1, hs⟩ := reachableSpan_complete hh hroot hr
    by_cases hk2 : k = 1
    · subst hk2
      norm_num at hs
      obtain ⟨a, rfl⟩ := List.length_eq_one.mp hs
      exact ⟨a, none, vistr_next_leaf D a, by simp⟩
    · have hk2le : 2 ≤ k := by omega
      obtain ⟨m, left, right, heq, _, _⟩ :=
        vistr_next_children_valid D s hk2le hs
      refine ⟨m, some (left, right), heq, ?_⟩
      have hp2 : 2 ≤ 2 ^ (k - 1) := by
        calc (2 : Nat) = 2 ^ 1 := by norm_num
        _ ≤ 2 ^ (k - 1) := Nat.pow_le_pow_right (by omega) (by omega)
      have hpow : 2 ^ k = 2 * 2 ^ (k - 1) := by
        obtain ⟨j, rfl⟩ : ∃ j, k = j + 1 := ⟨k - 1, by omega⟩
        rw [pow_succ, Nat.mul_comm]
        simp
      simp only [Option.isSome_some, true_iff]
      omega
  · intro h n hn hh i hi
    have hodd : n % 2 = 1 := hn ▸ two_pow_sub_one_odd hh
    have hin : i < n := reachableFrom_lt hodd hi
    refine ⟨hin, ?_⟩
    by_cases hleaf : first_leaf n ≤ i
    · refine ⟨none, by rw [downTNext, if_pos hin, if_pos hleaf], ?_⟩
      simp only [Option.isSome_none, Bool.false_eq_true, false_iff]
      omega
    · refine ⟨some (get_children i),
        by rw [downTNext, if_pos hin, if_neg hleaf], ?_⟩
      simp only [Option.isSome_some, true_iff]
      omega

/-- Witness for claim C2: the depth-first part at the InOrder span [0,1,2]
and the breadth-first part at the 3-node tree, root index 0. -/
theorem claim_C2_witness :
    (∃ m c, vistr_next DfsOrderTag.inOrder [0, 1, 2] = some (m, c) ∧
        (c.isSome ↔ 1 < ([0, 1, 2] : List Nat).length)) ∧
      (0 < 3 ∧ ∃ c, downTNext 3 (first_leaf 3) 0 = some (0, c) ∧
        (c.isSome ↔ 0 < first_leaf 3)) :=
  ⟨(@claim_C2 Nat).1 DfsOrderTag.inOrder 2 [0, 1, 2] [0, 1, 2] (by norm_num)
      (by norm_num) ReachableSpan.refl,
   (@claim_C2 Nat).2 2 3 (by norm_num) (by norm_num) 0 ReachableFrom.refl⟩

/-- Claim C3: constructing a tree from a caller-supplied buffer succeeds iff
the length is 2 ^ k - 1 for some k and positive (equivalently length + 1 is
a power of two and length > 0), returning the buffer unchanged; on any other
length it returns the invalid complete-tree-size error, as checked at
lengths 0, 1, 2, 6, 7 and 8. -/
theorem claim_C3 :
    (∀ (α : Type) (vec : List α),
        (((∃ k, vec.length + 1 = 2 ^ k) ∧ 0 < vec.length) →
            from_vec_inner vec = Except.ok vec) ∧
          (¬((∃ k, vec.length + 1 = 2 ^ k) ∧ 0 < vec.length) →
            from_vec_inner vec = Except.error NotCompleteTreeSizeErr.mk)) ∧
    from_vec_inner (List.range 0) = Except.error NotCompleteTreeSizeErr.mk ∧
    from_vec_inner (List.range 1) = Except.ok (List.range 1) ∧
    from_vec_inner (List.range 2) = Except.error NotCompleteTreeSizeErr.mk ∧
    from_vec_inner (List.range 6) = Except.error NotCompleteTreeSizeErr.mk ∧
    from_vec_inner (List.range 7) = Except.ok (List.range 7) ∧
    from_vec_inner (List.range 8) = Except.error NotCompleteTreeSizeErr.mk := by
  have hpot3 : ¬ ∃ k : Nat, (3 : Nat) = 2 ^ k := by
    rintro ⟨k, hk⟩
    have := (is_power_of_two_iff 3).mpr ⟨k, hk⟩
    rw [show (3 : Nat) = 1 + 2 from rfl, is_power_of_two_unfold] at this
    norm_num at this
  have hpot7 : ¬ ∃ k : Nat, (7 : Nat) = 2 ^ k := by
    rintro ⟨k, hk⟩
    have := (is_power_of_two_iff 7).mpr ⟨k, hk⟩
    rw [show (7 : Nat) = 5 + 2 from rfl, is_power_of_two_unfold] at this
    norm_num at this
  have hpot9 : ¬ ∃ k : Nat, (9 : Nat) = 2 ^ k := by
    rintro ⟨k, hk⟩
    have := (is_power_of_two_iff 9).mpr ⟨k, hk⟩
    rw [show (9 : Nat) = 7 + 2 from rfl, is_power_of_two_unfold] at this
    norm_num at this
  refine ⟨fun α vec => from_vec_inner_spec vec, ?_, ?_, ?_, ?_, ?_, ?_⟩
  · exact (from_vec_inner_spec _).2 (by simp)
  · exact (from_vec_inner_spec _).1 ⟨⟨1, by simp⟩, by simp⟩
  · refine (from_vec_inner_spec _).2 ?_
    rintro ⟨hex, -⟩
    exact hpot3 (by simpa using hex)
  · refine (from_vec_inner_spec _).2 ?_
    rintro ⟨hex, -⟩
    exact hpot7 (by simpa using hex)
  · exact (from_vec_inner_spec _).1 ⟨⟨3, by simp⟩, by simp⟩
  · refine (from_vec_inner_spec _).2 ?_
    rintro ⟨hex, -⟩
    exact hpot9 (by simpa using hex)

/-- Witness for claim C3: a valid three-element buffer is accepted and
returned unchanged. -/
theorem claim_C3_witness :
    from_vec_inner [10, 20, 30] = Except.ok [10, 20, 30] :=
  (claim_C3.1 Nat [10, 20, 30]).1 ⟨⟨2, by norm_num⟩, by norm_num⟩

/-- Claim C4: for any span of more than one element, InOrder splits into the
prefix before index len/2, the element at len/2, and the suffix after it;
PreOrder takes the first element and splits the remaining len-1 elements at
(len-1)/2; PostOrder takes the last element and splits the preceding len-1
elements at (len-1)/2; and on complete-tree spans (len + 1 a power of two)
all six parts have exactly (len-1)/2 elements, i.e. the halves are even. -/
theorem claim_C4 {α : Type} (l : List α) (hL : 1 < l.length) :
    (∃ m, l[l.length / 2]? = some m ∧
        InOrder_split l =
          some (m, l.take (l.length / 2), l.drop (l.length / 2 + 1))) ∧
    (∃ m, l[0]? = some m ∧
        PreOrder_split l =
          some (m, (l.drop 1).take ((l.length - 1) / 2),
                (l.drop 1).drop ((l.length - 1) / 2))) ∧
    (∃ m, l[l.length - 1]? = some m ∧
        PostOrder_split l =
          some (m, l.dropLast.take ((l.length - 1) / 2),
                l.dropLast.drop ((l.length - 1) / 2))) ∧
    (∀ k, l.length + 1 = 2 ^ k →
        (l.take (l.length / 2)).length = (l.length - 1) / 2 ∧
        (l.drop (l.length / 2 + 1)).length = (l.length - 1) / 2 ∧
        ((l.drop 1).take ((l.length - 1) / 2)).length = (l.length - 1) / 2 ∧
        ((l.drop 1).drop ((l.length - 1) / 2)).length = (l.length - 1) / 2 ∧
        (l.dropLast.take ((l.length - 1) / 2)).length = (l.length - 1) / 2 ∧
        (l.dropLast.drop ((l.length - 1) / 2)).length = (l.length - 1) / 2) := by
  refine ⟨?_, ?_, ?_, ?_⟩
  · obtain ⟨m, hd, hsplit⟩ := InOrder_split_of_one_le l (by omega)
    refine ⟨m, ?_, hsplit⟩
    have hg := List.getElem?_drop l (l.length / 2) 0
    rw [hd] at hg
    simpa using hg.symm
  · match l with
    | [] => simp at hL
    | m :: rest =>
      refine ⟨m, by simp, ?_⟩
      simp [PreOrder_split]
  · have hne : l ≠ [] := by
      intro hcon
      rw [hcon] at hL
      simp at hL
    obtain ⟨m, hm⟩ : ∃ m, l.getLast? = some m :=
      ⟨l.getLast hne, List.getLast?_eq_getLast _ _⟩
    refine ⟨m, ?_, ?_⟩
    · rw [← List.getLast?_eq_getElem?]
      exact hm
    · simp only [PostOrder_split, hm, List.length_dropLast]
  · intro k hk
    have hk2 : 2 ≤ k := by
      match k with
      | 0 => omega
      | 1 => omega
      | j + 2 => omega
    have hpow : 2 ^ k = 2 * 2 ^ (k - 1) := by
      obtain ⟨j, rfl⟩ : ∃ j, k = j + 1 := ⟨k - 1, by omega⟩
      rw [pow_succ, Nat.mul_comm]
      simp
    have hp2 : 2 ≤ 2 ^ (k - 1) := by
      calc (2 : Nat) = 2 ^ 1 := by norm_num
      _ ≤ 2 ^ (k - 1) := Nat.pow_le_pow_right (by omega) (by omega)
    simp only [List.length_take, List.length_drop, List.length_dropLast]
    omega

/-- Witness for claim C4 at the three-element span [0, 1, 2]. -/
theorem claim_C4_witness :
    (∃ m, ([0, 1, 2] : List Nat)[1]? = some m ∧
        InOrder_split [0, 1, 2] = some (m, [0], [2])) ∧
      (∃ m, ([0, 1, 2] : List Nat)[0]? = some m ∧
        PreOrder_split [0, 1, 2] = some (m, [1], [2])) ∧
      (∃ m, ([0, 1, 2] : List Nat)[2]? = some m ∧
        PostOrder_split [0, 1, 2] = some (m, [0], [1])) :=
  ⟨(@claim_C4 Nat [0, 1, 2] (by norm_num)).1,
   (@claim_C4 Nat [0, 1, 2] (by norm_num)).2.1,
   (@claim_C4 Nat [0, 1, 2] (by norm_num)).2.2.1⟩

/-- Claim C5 (code divergence): the pull-based preorder iterator pushes the
left child before the right child onto its LIFO stack (lib.rs:399-400), so
the next pop is the right child and it emits root, right subtree, left
subtree - already on the three-node tree this differs from the recursive
dfs_preorder (root, left, right) that the claim and the crate's own tests
describe. -/
theorem claim_C5_code_divergence :
    dfsPreorderIterRun
        [CTree.node 1 (some (CTree.node 2 none, CTree.node 3 none))] =
      [1, 3, 2] ∧
    dfs_preorder (CTree.node 1 (some (CTree.node 2 none, CTree.node 3 none))) =
      [1, 2, 3] ∧
    dfsPreorderIterRun
        [CTree.node 1 (some (CTree.node 2 none, CTree.node 3 none))] ≠
      dfs_preorder (CTree.node 1 (some (CTree.node 2 none, CTree.node 3 none))) := by
  have h1 : dfsPreorderIterRun
      [CTree.node 1 (some (CTree.node 2 none, CTree.node 3 none))] =
      [1, 3, 2] := by
    simp [dfsPreorderIterRun]
  exact ⟨h1, rfl, by rw [h1]; decide⟩

/-- Claim C6: zipping two visitors pairs their items, produces children
exactly when both sides produce children (pairing them componentwise), and
silently produces no children otherwise. -/
theorem claim_C6 {α β : Type} (a : CTree α) (b : CTree β) :
    (zipNext (a, b)).1 = ((CTree.next a).1, (CTree.next b).1) ∧
      ((zipNext (a, b)).2.isSome = true ↔
        ((CTree.next a).2.isSome = true ∧ (CTree.next b).2.isSome = true)) ∧
      (∀ al ar bl br, (CTree.next a).2 = some (al, ar) →
          (CTree.next b).2 = some (bl, br) →
          (zipNext (a, b)).2 = some ((al, bl), (ar, br))) := by
  rcases a with ⟨x, _ | ⟨al0, ar0⟩⟩ <;> rcases b with ⟨y, _ | ⟨bl0, br0⟩⟩ <;>
    simp [zipNext, CTree.next] <;>
    exact fun al ar bl br h1 h2 h3 h4 => ⟨⟨h1, h3⟩, h2, h4⟩

/-- Witness for claim C6 on two three-node trees. -/
theorem claim_C6_witness :
    (zipNext (CTree.node 1 (some (CTree.node 2 none, CTree.node 3 none)),
              CTree.node 4 (some (CTree.node 5 none, CTree.node 6 none)))).2 =
      some ((CTree.node 2 none, CTree.node 5 none),
            (CTree.node 3 none, CTree.node 6 none)) :=
  (claim_C6 (CTree.node 1 (some (CTree.node 2 none, CTree.node 3 none)))
      (CTree.node 4 (some (CTree.node 5 none, CTree.node 6 none)))).2.2
    (CTree.node 2 none) (CTree.node 3 none)
    (CTree.node 5 none) (CTree.node 6 none) rfl rfl

/-- Claim C7: the in-order walk of an InOrder-layout tree returns the
underlying buffer in storage order, for every valid buffer; in particular
the seven-element buffer 0..6 round-trips unchanged. -/
theorem claim_C7 :
    (∀ (α : Type) (h : Nat) (l : List α), 1 ≤ h → l.length = 2 ^ h - 1 →
        dfsInorderVistr l = some l) ∧
      dfsInorderVistr [0, 1, 2, 3, 4, 5, 6] = some [0, 1, 2, 3, 4, 5, 6] := by
  refine ⟨fun α h l hh hl => dfsInorderVistr_complete h l hh hl, ?_⟩
  exact dfsInorderVistr_complete 3 _ (by norm_num) (by decide)

/-- Witness for claim C7 at a single-element buffer. -/
theorem claim_C7_witness : dfsInorderVistr [42] = some [42] :=
  claim_C7.1 Nat 1 [42] (by norm_num) (by decide)

/-- Claim C8 (counterexample): with start depth 1 on a single-node tree
(height 1), the reported leaf depth is 1 while height - 1 = 0; so for an
arbitrary caller-supplied start value the leaf depth does not equal
height - 1. -/
theorem claim_C8_counterexample :
    leafDepths (withDepthT 1 (CTree.node (0 : Nat) none)) = [1] ∧
      (CTree.node (0 : Nat) none).height - 1 = 0 ∧
      ¬(∀ x ∈ leafDepths (withDepthT 1 (CTree.node (0 : Nat) none)),
          x = (CTree.node (0 : Nat) none).height - 1) := by
  refine ⟨rfl, rfl, ?_⟩
  intro hall
  have := hall 1 (by simp [withDepthT, leafDepths])
  simp [CTree.height] at this

/-- Claim C8 (amended): for every tree and every caller-supplied start
value, the root is reported at the start depth, every child is reported at
exactly its parent's reported depth plus one, and on a perfect tree every
leaf is reported at start + height - 1 (which is height - 1 exactly when
the start value is 0). -/
theorem claim_C8_amended {α : Type} (d : Nat) (t : CTree α)
    (hp : CTree.isPerfect t = true) :
    rootDepth (withDepthT d t) = d ∧
      depthsStep (withDepthT d t) = true ∧
      (∀ x ∈ leafDepths (withDepthT d t), x = d + t.height - 1) :=
  ⟨withDepthT_rootDepth d t, withDepthT_step t d,
   fun x hx => withDepthT_leafDepths t hp d x hx⟩

/-- Witness for the amended claim C8 at start depth 5 on a three-node tree. -/
theorem claim_C8_amended_witness :
    rootDepth (withDepthT 5 (CTree.node (1 : Nat)
        (some (CTree.node 2 none, CTree.node 3 none)))) = 5 ∧
      depthsStep (withDepthT 5 (CTree.node (1 : Nat)
        (some (CTree.node 2 none, CTree.node 3 none)))) = true ∧
      (∀ x ∈ leafDepths (withDepthT 5 (CTree.node (1 : Nat)
          (some (CTree.node 2 none, CTree.node 3 none)))),
        x = 5 + (CTree.node (1 : Nat)
          (some (CTree.node 2 none, CTree.node 3 none))).height - 1) :=
  @claim_C8_amended Nat 5
    (CTree.node 1 (some (CTree.node 2 none, CTree.node 3 none))) rfl

/-- Claim C9: on a complete span of 2 ^ h - 1 elements the depth-first
level_remaining_hint is exactly (h, Some h), the number of levels remaining
including the current one, and differs from the uninformative default
(0, None). -/
theorem claim_C9 {α : Type} (h : Nat) (l : List α) (hh : 1 ≤ h)
    (hl : l.length = 2 ^ h - 1) :
    vistr_dfs_level_remaining_hint l = some (h, some h) ∧
      (h, some h) ≠ default_level_remaining_hint := by
  have hp1 : 1 ≤ 2 ^ h := Nat.one_le_two_pow
  have hlen : l.length + 1 = 2 ^ h := by omega
  constructor
  · simp only [vistr_dfs_level_remaining_hint, log_2, hlen]
    rw [if_pos (by omega : (0 : Nat) < 2 ^ h), log2_two_pow]
  · intro hcon
    rw [default_level_remaining_hint] at hcon
    simp at hcon

/-- Witness for claim C9 at the three-element span (height 2). -/
theorem claim_C9_witness :
    vistr_dfs_level_remaining_hint ([10, 20, 30] : List Nat) =
        some (2, some 2) ∧
      ((2 : Nat), some (2 : Nat)) ≠ default_level_remaining_hint :=
  @claim_C9 Nat 2 [10, 20, 30] (by norm_num) (by decide)

/-- The callback postorder walk emits exactly the reverse of the callback
preorder walk. -/
theorem dfs_postorder_eq_reverse_preorder {α : Type} (t : CTree α) :
    dfs_postorder t = (dfs_preorder t).reverse := by
  induction t using CTree.myInduction with
  | leaf a => simp [dfs_postorder, dfs_preorder]
  | branch a l r ihl ihr => simp [dfs_postorder, dfs_preorder, ihl, ihr]

/-- Claim C10: dfs_postorder visits the whole right subtree, then the whole
left subtree, then the current node - the mirror of the left-to-right child
order of dfs_preorder (and dfs_inorder), so its emission sequence is the
exact reverse of dfs_preorder; on the height-2 tree with root 1 and
children 2 and 3 it emits 3, 2, 1. -/
theorem claim_C10 :
    (∀ (α : Type) (a : α) (l r : CTree α),
        dfs_postorder (CTree.node a (some (l, r))) =
          dfs_postorder r ++ dfs_postorder l ++ [a]) ∧
      (∀ (α : Type) (a : α) (l r : CTree α),
        dfs_preorder (CTree.node a (some (l, r))) =
          a :: (dfs_preorder l ++ dfs_preorder r)) ∧
      (∀ (α : Type) (a : α) (l r : CTree α),
        dfs_inorder (CTree.node a (some (l, r))) =
          dfs_inorder l ++ a :: dfs_inorder r) ∧
      (∀ (α : Type) (t : CTree α), dfs_postorder t = (dfs_preorder t).reverse) ∧
      dfs_postorder (CTree.node 1 (some (CTree.node 2 none, CTree.node 3 none))) =
        [3, 2, 1] := by
  refine ⟨?_, ?_, ?_, ?_, rfl⟩
  · intro α a l r
    simp [dfs_postorder]
  · intro α a l r
    simp [dfs_preorder]
  · intro α a l r
    simp [dfs_inorder]
  · intro α t
    exact dfs_postorder_eq_reverse_preorder t

end Compt
